import Mathlib

/-!
Shallow embedding of `enum_helpers.hpp` (glampert/enum_helpers).

The header defines two templates:

* `enum_iterator<EnumType, Last, Step>` — a forward iterator whose state is a
  single field `m_current` of the enum's underlying integer type.  Default
  construction and `begin()` give position 0, `end()` gives position `Last`,
  `operator++` adds `Step`, and `operator*` asserts `m_current < Last` before
  reinterpreting the position as an enum value.

* `enum_array<EnumType, DataType, ArraySize>` — a C array of
  `std::size_t(ArraySize)` elements with checked `operator[]` by position
  (`std::size_t`) and by key (enum value converted through `std::size_t`),
  a static `keys()` returning a default-constructed
  `enum_iterator<EnumType, ArraySize>`, and unchecked pointer traversal
  `begin/end` (storage order) and `rbegin/rend` (reverse storage order).

Enum values are modelled by their underlying integer (`Int`, the C++ `int`
default underlying type); `std::size_t` conversions take the value modulo
`2^64`.  The `ENUM_HELPERS_ASSERT` contract checks are modelled by `Option`:
`none` is a contract violation (assertion failure in a debug build).
-/

/-- State of `enum_iterator<EnumType, Last, Step>`: the single data member
`m_current` of the underlying integer type (line 120 of the header). -/
structure enum_iterator where
  m_current : Int
deriving DecidableEq, Repr

/-- `constexpr enum_iterator() noexcept : m_current{ 0 }` — the default
constructor (assumes 0 is the first constant). -/
def enum_iterator.default : enum_iterator := ⟨0⟩

/-- `constexpr enum_iterator(const EnumType index)` — construct from an enum
value, storing its underlying-integer representation. -/
def enum_iterator.fromEnum (index : Int) : enum_iterator := ⟨index⟩

/-- `m_current += Step` — the state change shared by both increments. -/
def enum_iterator.inc (step : Nat) (it : enum_iterator) : enum_iterator :=
  ⟨it.m_current + step⟩

/-- `operator++()` (pre-increment): advances the receiver and returns the
updated iterator.  Result: (new receiver state, returned copy). -/
def enum_iterator.preInc (step : Nat) (it : enum_iterator) :
    enum_iterator × enum_iterator :=
  let upd := it.inc step
  (upd, upd)

/-- `operator++(int)` (post-increment): copies the old value, advances the
receiver, returns the old copy.  Result: (new receiver state, returned copy). -/
def enum_iterator.postInc (step : Nat) (it : enum_iterator) :
    enum_iterator × enum_iterator :=
  (it.inc step, it)

/-- `operator*()`: asserts `m_current < Last` then reinterprets the position
as an enum value.  `none` models the assertion firing. -/
def enum_iterator.deref (last : Int) (it : enum_iterator) : Option Int :=
  if it.m_current < last then some it.m_current else none

/-- `operator==` compares raw positions. -/
def enum_iterator.eqIter (a b : enum_iterator) : Bool :=
  a.m_current == b.m_current

/-- `begin()`: a fresh default-constructed iterator (position 0). -/
def enum_iterator.begin : enum_iterator := enum_iterator.default

/-- `end()`: an iterator constructed from the terminal constant `Last`. -/
def enum_iterator.endIter (last : Int) : enum_iterator :=
  enum_iterator.fromEnum last

/-- Outcome of a `begin()`-to-`end()` loop over an `enum_iterator`. -/
inductive LoopStatus where
  | finished : LoopStatus
  | asserted : Int → LoopStatus
  | fuelOut : LoopStatus
deriving DecidableEq, Repr

/-- Values yielded by a range-for loop, and how the loop ended. -/
structure LoopOut where
  yielded : List Int
  status : LoopStatus
deriving DecidableEq, Repr

/-- The range-for loop `for (auto c : iter)`, i.e.
`for (it = begin; it != end; ++it) use(*it);`, run for at most `fuel`
iterations from iterator state `it`.  Each pass compares against
`endIter last` with `operator!=`, dereferences (recording a contract
violation if the assert fires), then pre-increments by `step`. -/
def runIter (last : Int) (step : Nat) : Nat → enum_iterator → LoopOut
  | 0, _ => ⟨[], .fuelOut⟩
  | fuel + 1, it =>
    if (it.eqIter (enum_iterator.endIter last)) = true then ⟨[], .finished⟩
    else
      match it.deref last with
      | some v =>
        let rest := runIter last step fuel (it.inc step)
        ⟨v :: rest.yielded, rest.status⟩
      | none => ⟨[], .asserted it.m_current⟩

/-- Number of loop passes that dereference successfully when starting at
position `pos`: the count of multiples `pos, pos+step, …` below `last`. -/
def passCount (last pos : Int) (step : Nat) : Nat :=
  ((last - pos).toNat + step - 1) / step

theorem eqIter_endIter (it : enum_iterator) (last : Int) :
    it.eqIter (enum_iterator.endIter last) = true ↔ it.m_current = last := by
  simp [enum_iterator.eqIter, enum_iterator.endIter, enum_iterator.fromEnum]

theorem runIter_succ_of_end (last : Int) (step fuel : Nat) (it : enum_iterator)
    (h : it.m_current = last) :
    runIter last step (fuel + 1) it = ⟨[], .finished⟩ := by
  simp [runIter, eqIter_endIter, h]

theorem runIter_succ_of_lt (last : Int) (step fuel : Nat) (it : enum_iterator)
    (hne : it.m_current ≠ last) (hlt : it.m_current < last) :
    runIter last step (fuel + 1) it =
      ⟨it.m_current :: (runIter last step fuel (it.inc step)).yielded,
        (runIter last step fuel (it.inc step)).status⟩ := by
  simp [runIter, eqIter_endIter, hne, enum_iterator.deref, hlt]

theorem runIter_succ_of_gt (last : Int) (step fuel : Nat) (it : enum_iterator)
    (hne : it.m_current ≠ last) (hge : ¬ it.m_current < last) :
    runIter last step (fuel + 1) it = ⟨[], .asserted it.m_current⟩ := by
  simp [runIter, eqIter_endIter, hne, enum_iterator.deref, hge]

theorem passCount_of_ge (last pos : Int) (step : Nat) (hstep : 1 ≤ step)
    (h : last ≤ pos) : passCount last pos step = 0 := by
  unfold passCount
  have h0 : (last - pos).toNat = 0 := by omega
  rw [h0]
  exact Nat.div_eq_of_lt (by omega)

theorem passCount_succ (last pos : Int) (step : Nat) (hstep : 1 ≤ step)
    (h : pos < last) :
    passCount last pos step = passCount last (pos + step) step + 1 := by
  unfold passCount
  have hd : 1 ≤ (last - pos).toNat := by omega
  have hd' : (last - (pos + step)).toNat = (last - pos).toNat - step := by omega
  rw [hd']
  set d := (last - pos).toNat with hdef
  rcases le_or_lt step d with hge | hlt
  · have h1 : d - step + step - 1 = d - 1 := by omega
    have h2 : d + step - 1 = (d - 1) + step := by omega
    rw [h1, h2, Nat.add_div_right _ (by omega)]
  · have h1 : d - step = 0 := by omega
    have h2 : (0 + step - 1) / step = 0 := Nat.div_eq_of_lt (by omega)
    rw [h1, h2]
    have h3 : d + step - 1 = (d - 1) + 1 * step := by omega
    rw [h3, Nat.add_mul_div_right _ _ (by omega), Nat.div_eq_of_lt (by omega)]

theorem runIter_yielded (step : Nat) (hstep : 1 ≤ step) :
    ∀ (fuel : Nat) (last : Int) (it : enum_iterator),
      last ≤ it.m_current + fuel * step →
      (runIter last step fuel it).yielded =
        (List.range (passCount last it.m_current step)).map
          (fun i : Nat => it.m_current + (i : Int) * (step : Int)) := by
  intro fuel
  induction fuel with
  | zero =>
    intro last it hf
    simp only [Nat.zero_mul, Nat.cast_zero, zero_mul, add_zero] at hf
    rw [runIter, passCount_of_ge last it.m_current step hstep (by omega)]
    simp
  | succ fuel ih =>
    intro last it hf
    by_cases hend : it.m_current = last
    · rw [runIter_succ_of_end last step fuel it hend,
        passCount_of_ge last it.m_current step hstep (le_of_eq hend.symm)]
      simp
    · by_cases hlt : it.m_current < last
      · rw [runIter_succ_of_lt last step fuel it hend hlt]
        have hf' : last ≤ (it.inc step).m_current + fuel * step := by
          simp only [enum_iterator.inc]
          push_cast at hf ⊢
          nlinarith
        show it.m_current :: (runIter last step fuel (it.inc step)).yielded = _
        rw [ih last (it.inc step) hf']
        simp only [enum_iterator.inc]
        rw [passCount_succ last it.m_current step hstep hlt,
          List.range_succ_eq_map, List.map_cons, List.map_map,
          List.cons_eq_cons]
        refine ⟨by simp, ?_⟩
        apply List.map_congr_left
        intro i _
        simp only [Function.comp_apply]
        push_cast
        ring
      · rw [runIter_succ_of_gt last step fuel it hend hlt,
          passCount_of_ge last it.m_current step hstep (by omega)]
        simp

theorem runIter_status_finished (step : Nat) (_hstep : 1 ≤ step) :
    ∀ (fuel : Nat) (last : Int) (it : enum_iterator),
      it.m_current ≤ last → (step : Int) ∣ (last - it.m_current) →
      last < it.m_current + fuel * step →
      (runIter last step fuel it).status = .finished := by
  intro fuel
  induction fuel with
  | zero =>
    intro last it hle _ hf
    simp only [Nat.zero_mul, Nat.cast_zero, zero_mul, add_zero] at hf
    omega
  | succ fuel ih =>
    intro last it hle hdvd hf
    by_cases hend : it.m_current = last
    · rw [runIter_succ_of_end last step fuel it hend]
    · have hlt : it.m_current < last := lt_of_le_of_ne hle hend
      rw [runIter_succ_of_lt last step fuel it hend hlt]
      have hstep' : (step : Int) ≤ last - it.m_current :=
        Int.le_of_dvd (by omega) hdvd
      have h1 : (it.inc step).m_current ≤ last := by
        simp only [enum_iterator.inc]; omega
      have h2 : (step : Int) ∣ (last - (it.inc step).m_current) := by
        simp only [enum_iterator.inc]
        have he : last - (it.m_current + step) = (last - it.m_current) - step := by
          ring
        rw [he]
        exact dvd_sub hdvd dvd_rfl
      have h3 : last < (it.inc step).m_current + fuel * step := by
        simp only [enum_iterator.inc]
        push_cast at hf ⊢
        nlinarith
      exact ih last (it.inc step) h1 h2 h3

theorem runIter_begin_step1_yielded (N : Nat) :
    (runIter (N : Int) 1 (N + 1) enum_iterator.begin).yielded
      = (List.range N).map (fun n : Nat => (n : Int)) := by
  have hb : enum_iterator.begin.m_current = 0 := rfl
  have hy := runIter_yielded 1 le_rfl (N + 1) (N : Int) enum_iterator.begin
    (by rw [hb]; push_cast; omega)
  rw [hb] at hy
  have hpc : passCount (N : Int) 0 1 = N := by
    unfold passCount
    simp
  rw [hpc] at hy
  rw [hy]
  apply List.map_congr_left
  intro i _
  push_cast
  ring

theorem runIter_begin_step1_status (N : Nat) :
    (runIter (N : Int) 1 (N + 1) enum_iterator.begin).status = .finished := by
  have hb : enum_iterator.begin.m_current = 0 := rfl
  exact runIter_status_finished 1 le_rfl (N + 1) (N : Int) enum_iterator.begin
    (by rw [hb]; positivity) (by rw [hb]; simp) (by rw [hb]; push_cast; omega)

/-- C1: for an enumeration with constants at positions `0..N-1` and terminal
value `N`, the `begin()`-to-`end()` loop with step 1 yields exactly `N`
values, in strictly ascending order, equal to the integers `0..N-1`
reinterpreted as enumeration values; it terminates at `end()` and the
terminal value `N` itself is never yielded. -/
theorem C1_step1_yields_all_constants (N : Nat) :
    (runIter (N : Int) 1 (N + 1) enum_iterator.begin).yielded
        = (List.range N).map (fun n : Nat => (n : Int))
      ∧ (runIter (N : Int) 1 (N + 1) enum_iterator.begin).yielded.length = N
      ∧ (runIter (N : Int) 1 (N + 1) enum_iterator.begin).yielded.Pairwise (· < ·)
      ∧ (runIter (N : Int) 1 (N + 1) enum_iterator.begin).status = .finished
      ∧ (N : Int) ∉ (runIter (N : Int) 1 (N + 1) enum_iterator.begin).yielded := by
  have hy' := runIter_begin_step1_yielded N
  refine ⟨hy', ?_, ?_, ?_, ?_⟩
  · rw [hy', List.length_map, List.length_range]
  · rw [hy']
    exact (List.pairwise_lt_range N).map _ (fun a b h => by exact_mod_cast h)
  · exact runIter_begin_step1_status N
  · rw [hy']
    simp

theorem mul_lt_of_lt_passBound (N S i : Nat) (hS : 1 ≤ S)
    (hi : i < (N + S - 1) / S) : i * S < N := by
  have h1 : i + 1 ≤ (N + S - 1) / S := hi
  have h2 : (i + 1) * S ≤ N + S - 1 :=
    (Nat.le_div_iff_mul_le (by omega)).mp h1
  have h3 : 1 * S ≤ (i + 1) * S := Nat.mul_le_mul_right S (by omega)
  have h4 : (i + 1) * S = i * S + S := by ring
  omega

/-- C3: for step `S > 1` and terminal value `N`, iterating from `begin()`
yields exactly the multiples `0, S, 2S, …` strictly less than `N`; the
iterator never yields `N` or any value at or beyond `N` (dereferencing
there trips the assert instead), and when `S` divides `N` the loop
terminates by reaching `end()`. -/
theorem C3_step_gt_one_yields_multiples (N S : Nat) (hS : 1 < S) :
    (runIter (N : Int) S (N + 1) enum_iterator.begin).yielded
        = (List.range ((N + S - 1) / S)).map (fun i : Nat => ((i * S : Nat) : Int))
      ∧ (∀ v ∈ (runIter (N : Int) S (N + 1) enum_iterator.begin).yielded,
          0 ≤ v ∧ v < (N : Int) ∧ (S : Int) ∣ v)
      ∧ (N : Int) ∉ (runIter (N : Int) S (N + 1) enum_iterator.begin).yielded
      ∧ (N % S = 0 →
          (runIter (N : Int) S (N + 1) enum_iterator.begin).status = .finished) := by
  have hS1 : 1 ≤ S := le_of_lt hS
  have hb : enum_iterator.begin.m_current = 0 := rfl
  have hfuel : (N : Int) ≤ 0 + (N + 1) * (S : Int) := by nlinarith [Int.natCast_nonneg N]
  have hy := runIter_yielded S hS1 (N + 1) (N : Int) enum_iterator.begin
    (by rw [hb]; push_cast at hfuel ⊢; linarith)
  rw [hb] at hy
  have hpc : passCount (N : Int) 0 S = (N + S - 1) / S := by
    unfold passCount
    norm_num
  rw [hpc] at hy
  have hy' : (runIter (N : Int) S (N + 1) enum_iterator.begin).yielded
      = (List.range ((N + S - 1) / S)).map (fun i : Nat => ((i * S : Nat) : Int)) := by
    rw [hy]
    apply List.map_congr_left
    intro i _
    push_cast
    ring
  have hmem : ∀ v ∈ (runIter (N : Int) S (N + 1) enum_iterator.begin).yielded,
      0 ≤ v ∧ v < (N : Int) ∧ (S : Int) ∣ v := by
    rw [hy']
    intro v hv
    rcases List.mem_map.mp hv with ⟨i, hi, rfl⟩
    have hiN : i * S < N := mul_lt_of_lt_passBound N S i hS1 (List.mem_range.mp hi)
    refine ⟨by positivity, by exact_mod_cast hiN, ?_⟩
    push_cast
    exact Dvd.intro_left _ rfl
  refine ⟨hy', hmem, ?_, ?_⟩
  · intro hNmem
    have := (hmem (N : Int) hNmem).2.1
    omega
  · intro hmod
    refine runIter_status_finished S hS1 (N + 1) (N : Int) enum_iterator.begin
      (by rw [hb]; positivity) ?_ ?_
    · rw [hb]
      simp only [sub_zero]
      exact_mod_cast Nat.dvd_of_mod_eq_zero hmod
    · rw [hb]
      push_cast at hfuel ⊢
      nlinarith [Int.natCast_nonneg N]

theorem C3_witness : (runIter (5 : Int) 2 6 enum_iterator.begin).yielded
        = (List.range ((5 + 2 - 1) / 2)).map (fun i : Nat => ((i * 2 : Nat) : Int))
      ∧ (∀ v ∈ (runIter (5 : Int) 2 6 enum_iterator.begin).yielded,
          0 ≤ v ∧ v < (5 : Int) ∧ (2 : Int) ∣ v)
      ∧ (5 : Int) ∉ (runIter (5 : Int) 2 6 enum_iterator.begin).yielded
      ∧ (5 % 2 = 0 →
          (runIter (5 : Int) 2 6 enum_iterator.begin).status = .finished) :=
  C3_step_gt_one_yields_multiples 5 2 (by decide)

/-- C6: pre-increment advances the receiver by exactly `step` and returns the
updated iterator; post-increment returns a copy at the old position while the
receiver advances by exactly `step`. -/
theorem C6_increment_semantics (step : Nat) (it : enum_iterator) :
    ((it.preInc step).1.m_current = it.m_current + step)
      ∧ ((it.preInc step).2.m_current = it.m_current + step)
      ∧ ((it.postInc step).2.m_current = it.m_current)
      ∧ ((it.postInc step).1.m_current = it.m_current + step) :=
  ⟨rfl, rfl, rfl, rfl⟩

/-- C7: dereference trips the assertion (contract violation, modelled as
`none`) if and only if the position is at or beyond the terminal value; below
the terminal it succeeds and returns the enumeration value at the current
position. -/
theorem C7_deref_contract (last : Int) (it : enum_iterator) :
    (it.deref last = none ↔ last ≤ it.m_current)
      ∧ (it.m_current < last → it.deref last = some it.m_current) := by
  unfold enum_iterator.deref
  constructor
  · split
    · simp only [reduceCtorEq, false_iff]
      omega
    · simp only [true_iff]
      omega
  · intro h
    simp [h]

theorem C7_witness : ((enum_iterator.mk 2).deref 3 = none ↔ (3 : Int) ≤ 2)
      ∧ ((2 : Int) < 3 → (enum_iterator.mk 2).deref 3 = some 2) :=
  C7_deref_contract 3 (enum_iterator.mk 2)

/-- C4 as stated is false: `end()` (header line 116) constructs an iterator
whose position equals the terminal value, outside the half-open range
`[0, terminal)`. Concretely, with terminal value 3, `end()` sits at
position 3. -/
theorem C4_counterexample_end_at_terminal :
    (enum_iterator.endIter 3).m_current = 3
      ∧ ¬ ((enum_iterator.endIter 3).m_current ≥ 0
            ∧ (enum_iterator.endIter 3).m_current < 3) :=
  ⟨rfl, by decide⟩

/-- C4 amended: default construction and `begin()` establish position 0 (in
`[0, terminal)` whenever the terminal is positive), construction from a valid
enumeration constant lands in `[0, terminal)`, but `end()` sits exactly at
the terminal position and increment preserves only the lower bound 0; a
position is dereferenceable exactly when it is strictly below the terminal,
so the terminal and beyond are never dereferenced. -/
theorem C4_position_range_amended (last : Int) (step : Nat) (v : Int)
    (it : enum_iterator) (hlast : 0 < last) (hv0 : 0 ≤ v) (hv : v < last) :
    (enum_iterator.default.m_current = 0 ∧ enum_iterator.begin.m_current = 0)
      ∧ (0 ≤ enum_iterator.begin.m_current ∧ enum_iterator.begin.m_current < last)
      ∧ (0 ≤ (enum_iterator.fromEnum v).m_current
          ∧ (enum_iterator.fromEnum v).m_current < last)
      ∧ (enum_iterator.endIter last).m_current = last
      ∧ (0 ≤ it.m_current → 0 ≤ (it.inc step).m_current)
      ∧ (it.deref last ≠ none ↔ it.m_current < last) := by
  refine ⟨⟨rfl, rfl⟩, ⟨le_refl 0, hlast⟩, ⟨hv0, hv⟩, rfl, ?_, ?_⟩
  · intro h
    simp only [enum_iterator.inc]
    positivity
  · unfold enum_iterator.deref
    split
    · simp only [ne_eq, reduceCtorEq, not_false_eq_true, true_iff]
      omega
    · simp only [ne_eq, not_true_eq_false, false_iff]
      omega

theorem C4_witness :
    ((enum_iterator.default.m_current = 0 ∧ enum_iterator.begin.m_current = 0)
      ∧ (0 ≤ enum_iterator.begin.m_current ∧ enum_iterator.begin.m_current < 3)
      ∧ (0 ≤ (enum_iterator.fromEnum 2).m_current
          ∧ (enum_iterator.fromEnum 2).m_current < 3)
      ∧ (enum_iterator.endIter 3).m_current = 3
      ∧ (0 ≤ (enum_iterator.mk 1).m_current
          → 0 ≤ ((enum_iterator.mk 1).inc 1).m_current)
      ∧ ((enum_iterator.mk 1).deref 3 ≠ none ↔ (enum_iterator.mk 1).m_current < 3)) :=
  C4_position_range_amended 3 1 2 (enum_iterator.mk 1) (by decide) (by decide) (by decide)

/-- `std::size_t(v)`: conversion of the enum's underlying integer value to
`std::size_t`, i.e. reduction modulo `2^64`. -/
def size_t_of_int (v : Int) : Nat := (v % (2 ^ 64 : Int)).toNat

/-- `enum_array<EnumType, DataType, ArraySize>`: the public data member
`m_elements`, a C array of `std::size_t(ArraySize) = N` elements filled by
aggregate initialization (one value per enumeration constant, in order). -/
structure enum_array (α : Type) (N : Nat) where
  m_elements : List α
  size_eq : m_elements.length = N

/-- `static constexpr std::size_t size()` — the fixed length
`std::size_t(ArraySize)`. -/
def enum_array.size {α : Type} {N : Nat} (_a : enum_array α N) : Nat := N

/-- `operator[](const std::size_t index)`: asserts `index < size()` and
returns `m_elements[index]`.  `none` models the assertion firing. -/
def enum_array.getPos {α : Type} {N : Nat} (a : enum_array α N)
    (index : Nat) : Option α :=
  if h : index < a.size then
    some (a.m_elements.get ⟨index, by rw [a.size_eq]; exact h⟩)
  else none

/-- `operator[](const EnumType index)`: asserts
`std::size_t(index) < size()` and returns `m_elements[std::size_t(index)]`. -/
def enum_array.getKey {α : Type} {N : Nat} (a : enum_array α N)
    (index : Int) : Option α :=
  if h : size_t_of_int index < a.size then
    some (a.m_elements.get ⟨size_t_of_int index, by rw [a.size_eq]; exact h⟩)
  else none

/-- Writing through the mutable `operator[](const std::size_t index)`: the
same `index < size()` assert, then the slot at `index` is replaced. -/
def enum_array.setPos {α : Type} {N : Nat} (a : enum_array α N)
    (index : Nat) (v : α) : Option (enum_array α N) :=
  if index < a.size then
    some ⟨a.m_elements.set index v, by rw [List.length_set]; exact a.size_eq⟩
  else none

/-- Writing through the mutable `operator[](const EnumType index)`: the same
`std::size_t(index) < size()` assert, then that slot is replaced. -/
def enum_array.setKey {α : Type} {N : Nat} (a : enum_array α N)
    (index : Int) (v : α) : Option (enum_array α N) :=
  if size_t_of_int index < a.size then
    some ⟨a.m_elements.set (size_t_of_int index) v,
      by rw [List.length_set]; exact a.size_eq⟩
  else none

/-- `static constexpr key_iterator keys()` — a default-constructed
`enum_iterator<EnumType, ArraySize>` (the bound `ArraySize` is the `last`
argument when the iterator is run). -/
def enum_array.keys : enum_iterator := enum_iterator.default

/-- The unchecked forward traversal `begin()`..`end()`: the pointer walk over
`&m_elements[0] .. &m_elements[size()]` reads the contiguous storage in
order. -/
def enum_array.fwdTraverse {α : Type} {N : Nat} (a : enum_array α N) :
    List α := a.m_elements

/-- The reverse pointer walk from a base pointer `k` slots past the start:
`std::reverse_iterator` dereferences one slot before its base, so the walk
reads indices `k-1, k-2, …, 0`. -/
def revWalk {α : Type} (l : List α) : Nat → List α
  | 0 => []
  | k + 1 => (if h : k < l.length then [l.get ⟨k, h⟩] else []) ++ revWalk l k

/-- The unchecked reverse traversal `rbegin()`..`rend()`:
`rbegin() = reverse_iterator{end()}` starts `size()` slots past the start and
`rend() = reverse_iterator{begin()}` stops at the start. -/
def enum_array.revTraverse {α : Type} {N : Nat} (a : enum_array α N) :
    List α := revWalk a.m_elements N

theorem size_t_of_int_eq_toNat (i : Int) (h0 : 0 ≤ i) (h : i < 2 ^ 64) :
    size_t_of_int i = i.toNat := by
  unfold size_t_of_int
  rw [Int.emod_eq_of_lt h0 h]

theorem revWalk_eq_reverse_take {α : Type} (l : List α) :
    ∀ k : Nat, revWalk l k = (l.take k).reverse := by
  intro k
  induction k with
  | zero => rfl
  | succ k ih =>
    rw [revWalk, ih, List.take_succ, List.reverse_append]
    by_cases h : k < l.length
    · rw [dif_pos h, List.getElem?_eq_getElem h]
      simp
    · rw [dif_neg h, List.getElem?_eq_none (by omega)]
      simp

/-- C2: for an array built from the ordered element list, positional checked
access at any valid position `k` returns the `k`-th construction element;
keyed access with an in-range enumeration value `i` returns the `i`-th
element; and keyed access equals positional access at the key's
underlying-integer conversion. -/
theorem C2_positional_and_keyed_access (α : Type) (N : Nat)
    (a : enum_array α N) (k : Nat) (i : Int) (hk : k < N) (hi0 : 0 ≤ i)
    (hiN : i < (N : Int)) (hN : N ≤ 2 ^ 64) :
    a.getPos k = a.m_elements[k]?
      ∧ a.getKey i = a.m_elements[i.toNat]?
      ∧ a.getKey i = a.getPos i.toNat := by
  have hkl : k < a.m_elements.length := by rw [a.size_eq]; exact hk
  have hi64 : i < (2 : Int) ^ 64 := by
    calc i < (N : Int) := hiN
    _ ≤ (2 : Int) ^ 64 := by exact_mod_cast hN
  have hs : size_t_of_int i = i.toNat := size_t_of_int_eq_toNat i hi0 hi64
  have hil : i.toNat < N := by omega
  have hill : i.toNat < a.m_elements.length := by rw [a.size_eq]; exact hil
  have h1 : a.getPos k = a.m_elements[k]? := by
    unfold enum_array.getPos
    simp only [enum_array.size]
    rw [dif_pos hk, List.getElem?_eq_getElem hkl]
    simp
  have h2 : a.getKey i = a.m_elements[i.toNat]? := by
    unfold enum_array.getKey
    simp only [enum_array.size, hs]
    rw [dif_pos hil, List.getElem?_eq_getElem hill]
    simp
  have h3 : a.getPos i.toNat = a.m_elements[i.toNat]? := by
    unfold enum_array.getPos
    simp only [enum_array.size]
    rw [dif_pos hil, List.getElem?_eq_getElem hill]
    simp
  exact ⟨h1, h2, h2.trans h3.symm⟩

theorem C2_witness :
    ((⟨[10, 20, 30], rfl⟩ : enum_array Nat 3).getPos 1 = [10, 20, 30][1]?
      ∧ (⟨[10, 20, 30], rfl⟩ : enum_array Nat 3).getKey 2
          = [10, 20, 30][(2 : Int).toNat]?
      ∧ (⟨[10, 20, 30], rfl⟩ : enum_array Nat 3).getKey 2
          = (⟨[10, 20, 30], rfl⟩ : enum_array Nat 3).getPos (2 : Int).toNat) :=
  C2_positional_and_keyed_access Nat 3 ⟨[10, 20, 30], rfl⟩ 1 2
    (by decide) (by decide) (by decide) (by norm_num)

/-- C5: `keys()` is a default-constructed key iterator; running it to `end()`
yields exactly the `N` enumeration values `0..N-1` in positional order, and
zipping these keys with the array's elements reproduces the construction
list as (key, value) pairs. -/
theorem C5_keys_pair_with_elements (α : Type) (N : Nat)
    (a : enum_array α N) :
    (runIter (N : Int) 1 (N + 1) enum_array.keys).yielded
        = (List.range N).map (fun n : Nat => (n : Int))
      ∧ (runIter (N : Int) 1 (N + 1) enum_array.keys).yielded.length = N
      ∧ (runIter (N : Int) 1 (N + 1) enum_array.keys).yielded.zip a.m_elements
          = a.m_elements.enum.map (fun p => ((p.1 : Int), p.2)) := by
  have hkeys : enum_array.keys = enum_iterator.begin := rfl
  have hy : (runIter (N : Int) 1 (N + 1) enum_array.keys).yielded
      = (List.range N).map (fun n : Nat => (n : Int)) := by
    rw [hkeys]
    exact runIter_begin_step1_yielded N
  refine ⟨hy, by rw [hy]; simp, ?_⟩
  have hz : a.m_elements.enum = (List.range N).zip a.m_elements := by
    rw [List.enum_eq_zip_range, a.size_eq]
  rw [hy, List.zip_map_left, ← hz]
  apply List.map_congr_left
  intro p _
  cases p
  rfl

/-- C8: checked access at any position at or past the length, and keyed
access with any enumeration value whose integer representation is at or past
the length, trip the assertion (contract violation, modelled as `none`);
no out-of-range index is clamped or wrapped to a stored element. -/
theorem C8_out_of_range_access_fails (α : Type) (N : Nat)
    (a : enum_array α N) (k : Nat) (i : Int) (hk : N ≤ k) (hi0 : 0 ≤ i)
    (hiN : (N : Int) ≤ i) (hi64 : i < 2 ^ 64) :
    a.getPos k = none ∧ a.getKey i = none := by
  have hs : size_t_of_int i = i.toNat := size_t_of_int_eq_toNat i hi0 hi64
  constructor
  · unfold enum_array.getPos
    rw [dif_neg]
    show ¬ k < N
    omega
  · unfold enum_array.getKey
    rw [dif_neg]
    show ¬ size_t_of_int i < N
    rw [hs]
    omega

theorem C8_witness :
    ((⟨[10, 20, 30], rfl⟩ : enum_array Nat 3).getPos 3 = none
      ∧ (⟨[10, 20, 30], rfl⟩ : enum_array Nat 3).getKey 3 = none) :=
  C8_out_of_range_access_fails Nat 3 ⟨[10, 20, 30], rfl⟩ 3 3
    (by decide) (by decide) (by decide) (by norm_num)

/-- C9: the reverse traversal `rbegin()`..`rend()` yields exactly the reverse
of the forward `begin()`..`end()` traversal, reversing it again restores the
forward sequence, and it covers all `N` elements. -/
theorem C9_reverse_traversal (α : Type) (N : Nat) (a : enum_array α N) :
    a.revTraverse = a.fwdTraverse.reverse
      ∧ a.revTraverse.reverse = a.fwdTraverse
      ∧ a.revTraverse.length = N := by
  have h : a.revTraverse = a.fwdTraverse.reverse := by
    unfold enum_array.revTraverse enum_array.fwdTraverse
    rw [revWalk_eq_reverse_take,
      List.take_of_length_le (le_of_eq a.size_eq)]
  refine ⟨h, by rw [h, List.reverse_reverse], ?_⟩
  rw [h, List.length_reverse]
  exact a.size_eq

/-- C10: writing one element through the mutable checked accessor — by
position `k` or by enumeration key `i` — changes only that slot: every other
slot keeps its previous value and the array's length (and `size()`) are
unchanged; the written slot holds the new value. -/
theorem C10_write_frame (α : Type) (N : Nat) (a a1 a2 : enum_array α N)
    (k j : Nat) (i : Int) (v w : α)
    (h1 : a.setPos k v = some a1) (hj1 : j ≠ k)
    (h2 : a.setKey i w = some a2) (hj2 : j ≠ size_t_of_int i) :
    a1.m_elements[j]? = a.m_elements[j]?
      ∧ a1.m_elements.length = a.m_elements.length
      ∧ a1.m_elements[k]? = some v
      ∧ a2.m_elements[j]? = a.m_elements[j]?
      ∧ a2.m_elements.length = a.m_elements.length
      ∧ a1.size = a.size ∧ a2.size = a.size := by
  unfold enum_array.setPos at h1
  unfold enum_array.setKey at h2
  split at h1
  case isFalse => exact absurd h1 (by simp)
  case isTrue hck =>
    split at h2
    case isFalse => exact absurd h2 (by simp)
    case isTrue hci =>
      have e1 : a1.m_elements = a.m_elements.set k v := by
        have := Option.some.inj h1
        rw [← this]
      have e2 : a2.m_elements = a.m_elements.set (size_t_of_int i) w := by
        have := Option.some.inj h2
        rw [← this]
      have hkl : k < a.m_elements.length := by
        rw [a.size_eq]
        exact hck
      refine ⟨?_, ?_, ?_, ?_, ?_, rfl, rfl⟩
      · rw [e1, List.getElem?_set_ne (fun he => hj1 he.symm)]
      · rw [e1, List.length_set]
      · rw [e1, List.getElem?_set_self hkl]
      · rw [e2, List.getElem?_set_ne (fun he => hj2 he.symm)]
      · rw [e2, List.length_set]

theorem C10_witness :
    ((⟨[10, 99, 30], rfl⟩ : enum_array Nat 3).m_elements[0]?
          = (⟨[10, 20, 30], rfl⟩ : enum_array Nat 3).m_elements[0]?
      ∧ (⟨[10, 99, 30], rfl⟩ : enum_array Nat 3).m_elements.length
          = (⟨[10, 20, 30], rfl⟩ : enum_array Nat 3).m_elements.length
      ∧ (⟨[10, 99, 30], rfl⟩ : enum_array Nat 3).m_elements[1]? = some 99
      ∧ (⟨[10, 20, 77], rfl⟩ : enum_array Nat 3).m_elements[0]?
          = (⟨[10, 20, 30], rfl⟩ : enum_array Nat 3).m_elements[0]?
      ∧ (⟨[10, 20, 77], rfl⟩ : enum_array Nat 3).m_elements.length
          = (⟨[10, 20, 30], rfl⟩ : enum_array Nat 3).m_elements.length
      ∧ (⟨[10, 99, 30], rfl⟩ : enum_array Nat 3).size
          = (⟨[10, 20, 30], rfl⟩ : enum_array Nat 3).size
      ∧ (⟨[10, 20, 77], rfl⟩ : enum_array Nat 3).size
          = (⟨[10, 20, 30], rfl⟩ : enum_array Nat 3).size) :=
  C10_write_frame Nat 3 ⟨[10, 20, 30], rfl⟩ ⟨[10, 99, 30], rfl⟩
    ⟨[10, 20, 77], rfl⟩ 1 0 2 99 77 rfl (by decide) rfl (by decide)
